import Mathlib

/-
Verification of the batching core of `organize_files.py`.

The embedding models Python 2 semantics of the script: `str.split(sep)`
(which never drops empty fields), `'/'.join`, substring containment
(`x in s`), `zip(*lists)` (truncating transpose), `list.remove` (removes
the first occurrence, raises ValueError when absent, modelled as
`Except.error`), and `os.path.join` for two POSIX path arguments.
-/

/-- Python `s.split(sep)` for a one-character separator, on the character
list of `s`: empty fields are kept, and the result is never empty. -/
def pySplitOn (sep : Char) : List Char → List (List Char)
  | [] => [[]]
  | a :: as =>
    match pySplitOn sep as with
    | [] => [[]]
    | h :: t => if a = sep then [] :: h :: t else (a :: h) :: t

/-- Python `'/'.join(parts)` on character lists. -/
def joinSlash : List (List Char) → List Char
  | [] => []
  | [x] => x
  | x :: y :: rest => x ++ '/' :: joinSlash (y :: rest)

/-- Python `needle in hay` for strings: contiguous substring containment. -/
def isSubstr (needle hay : List Char) : Bool := decide (needle <:+: hay)

/-- Python `s.split('/')` as used throughout the script. -/
def splitPath (s : String) : List (List Char) := pySplitOn '/' s.data

/-- Python `'/'.join(f.split('/')[:-1])`: the containing directory of a
file path, as computed in `Batch.directories`. -/
def dirOf (f : String) : String := ⟨joinSlash ((splitPath f).dropLast)⟩

/-- Python `os.path.join(a, b)` for POSIX paths, two arguments. -/
def osPathJoin (a b : String) : String :=
  if b.data.head? = some '/' then b
  else if a = "" ∨ a.data.getLast? = some '/' then a ++ b
  else a ++ "/" ++ b

/-- The `Batch` class: `root`, ordered `files`, and the `blocked` flag. -/
structure Batch where
  root : String
  files : List String
  blocked : Bool
  deriving DecidableEq

/-- `Batch.directories`: `list(set('/'.join(f.split('/')[:-1]) for f in files))`.
Python's set iteration order is unspecified; we dedup keeping first
occurrences, and every use of the result is order-insensitive. -/
def Batch.directories (b : Batch) : List String :=
  (b.files.map dirOf).dedup

/-- `Batch.top_level_directories`: keep `d` when exactly one directory of the
batch occurs as a substring of `d` (that one being `d` itself). -/
def Batch.top_level_directories (b : Batch) : List String :=
  b.directories.filter
    (fun d => (b.directories.filter (fun x => isSubstr x.data d.data)).length == 1)

/-- Python `zip(*lists)` restricted to the row structure: helper recursing on
the first list, producing one row per level until some list is exhausted. -/
def zipStarAux : List α → List (List α) → List (List α)
  | [], _ => []
  | x :: xs, rest =>
    if rest.any List.isEmpty then []
    else (x :: rest.filterMap List.head?) :: zipStarAux xs (rest.map List.tail)

/-- Python `zip(*lists)`: transpose truncated at the shortest list; `zip()`
of no lists is empty. -/
def pyZipStar : List (List α) → List (List α)
  | [] => []
  | l0 :: rest => zipStarAux l0 rest

/-- The `for level in zip(*split_dirs)` loop of `rebalance_root`: extend the
accumulated root while every entry of the level equals the first entry,
stop at the first mismatching level. (A level is never empty when the
input lists are nonempty; the `[]` case is unreachable and defensive.) -/
def lcpLoop [DecidableEq α] : List (List α) → List α
  | [] => []
  | row :: rest =>
    match row with
    | [] => []
    | x :: xs => if (x :: xs).all (fun y => decide (y = x)) then x :: lcpLoop rest else []

/-- `Batch.rebalance_root`: recompute `root` as
`'/'.join` of the zip-and-compare loop over the split directories. -/
def Batch.rebalance_root (b : Batch) : Batch :=
  { b with root := ⟨joinSlash (lcpLoop (pyZipStar (b.directories.map splitPath)))⟩ }

/-- `Batch.add`: append the path, then rebalance the root. -/
def Batch.add (b : Batch) (f : String) : Batch :=
  Batch.rebalance_root { b with files := b.files ++ [f] }

/-- Python `list.remove(x)`: drop the first occurrence of `x`, or `none`
when `x` is absent (where Python raises `ValueError`). -/
def pyListRemove (x : String) : List String → Option (List String)
  | [] => none
  | y :: ys => if y = x then some ys else (pyListRemove x ys).map (y :: ·)

/-- `Batch.remove`: remove the first occurrence and rebalance; Python's
`ValueError` on a missing element is modelled as `Except.error`. -/
def Batch.remove (b : Batch) (f : String) : Except String Batch :=
  match pyListRemove f b.files with
  | none => Except.error "list.remove(x): x not in list"
  | some fs => Except.ok (Batch.rebalance_root { b with files := fs })

/-- `Batch.file_count`. -/
def Batch.file_count (b : Batch) : Nat := b.files.length

/-- `Batch.blocks(dirs)`: some member of `dirs` is one of this batch's
directories (list membership, not substring). -/
def Batch.blocks (b : Batch) (dirs : List String) : Bool :=
  dirs.any (fun d => decide (d ∈ b.directories))

/-- `Batch.base_similar(other_root)` translated branch by branch. The second
Python branch compares the list `self.root.split('/')[:-1]` with the string
`other_root`; a list never equals a string in Python, so it is `false`. -/
def Batch.base_similar (b : Batch) (other_root : String) : Bool :=
  if b.root = other_root then true
  else if (false : Bool) then true
  else if (splitPath b.root).dropLast = (splitPath other_root).dropLast then true
  else if isSubstr other_root.data b.root.data then true
  else false

/-- `check_if_blocked(batches, root, dirs)`. -/
def check_if_blocked (batches : List Batch) (root : String) (dirs : List String) : Bool :=
  batches.any (fun b => b.blocks (dirs.map (osPathJoin root)))

/-- `filter_python_files(files)`: keep files whose last dot-separated field
is `py`. -/
def filter_python_files (files : List String) : List String :=
  files.filter (fun f => decide ((pySplitOn '.' f.data).getLastD [] = ['p', 'y']))

/-- One `(root, dirs, files)` triple of the `os.walk(path, topdown=False)`
traversal consumed by `crawl`. -/
structure Node where
  root : String
  dirs : List String
  files : List String
  deriving DecidableEq

/-- The loop state of `crawl`: the closed batches and the open batch when
`in_a_batch` holds (`none` models `in_a_batch = False`; the stale
`current_batch` variable is never read in that state). -/
structure CrawlState where
  batches : List Batch
  current : Option Batch
  deriving DecidableEq

/-- The open-or-reopen part of the loop body: take the open batch (or a
fresh `Batch(root)` when none is open), and when it is not `base_similar`
to the node's root, close it and start a fresh `Batch(root)`. Returns the
closed list and the open batch. -/
def crawlScope (st : CrawlState) (root : String) : List Batch × Batch :=
  let cur0 := match st.current with
    | none => Batch.mk root [] false
    | some c => c
  if cur0.base_similar root then (st.batches, cur0)
  else (st.batches ++ [cur0], Batch.mk root [] false)

/-- The blocked-marking part of the loop body: set `blocked` on the open
batch when `check_if_blocked` fires against the closed batches. -/
def markBlocked (bc : List Batch × Batch) (root : String) (dirs : List String) :
    List Batch × Batch :=
  if check_if_blocked bc.1 root dirs then (bc.1, { bc.2 with blocked := true }) else bc

/-- The add-and-close part of the loop body: add every joined python file
path to the open batch, then close it when `file_count() >= LIMIT`. -/
def addAndClose (LIMIT : Nat) (bc : List Batch × Batch) (paths : List String) : CrawlState :=
  let cur := paths.foldl Batch.add bc.2
  if LIMIT ≤ cur.file_count then ⟨bc.1 ++ [cur], none⟩ else ⟨bc.1, some cur⟩

/-- One iteration of the `for root, dirs, files in os.walk(...)` loop of
`crawl`: skip nodes with no python files, otherwise open/close on scope,
mark blocking, add the node's python files, and close on the limit. -/
def crawlStep (LIMIT : Nat) (st : CrawlState) (n : Node) : CrawlState :=
  if (filter_python_files n.files).length < 1 then st
  else
    addAndClose LIMIT (markBlocked (crawlScope st n.root) n.root n.dirs)
      ((filter_python_files n.files).map (osPathJoin n.root))

/-- The initial `crawl` state: no closed batches, `in_a_batch = False`. -/
def crawlInit : CrawlState := ⟨[], none⟩

/-- `crawl(path, LIMIT)` over an abstract deepest-first traversal: fold the
loop body over the nodes, then close the still-open batch if any. -/
def crawl (nodes : List Node) (LIMIT : Nat) : List Batch :=
  let st := nodes.foldl (crawlStep LIMIT) crawlInit
  match st.current with
  | some c => st.batches ++ [c]
  | none => st.batches

/-- Pairwise longest common prefix of two lists, as the spec words it:
compare position by position, stop at the first mismatch or at the end of
the shorter list. -/
def lcp2 [DecidableEq α] : List α → List α → List α
  | [], _ => []
  | _ :: _, [] => []
  | a :: as, b :: bs => if a = b then a :: lcp2 as bs else []

/-- Longest common prefix of a family of lists (spec-side definition of
"longest common path-component prefix"). -/
def lcpAll [DecidableEq α] : List (List α) → List α
  | [] => []
  | h :: t => t.foldl lcp2 h

/-- `r` is the longest common prefix of the family `ls`. -/
def IsLCP (ls : List (List α)) (r : List α) : Prop :=
  (∀ l ∈ ls, r <+: l) ∧ ∀ c, (∀ l ∈ ls, c <+: l) → c <+: r

/-- Invariant for C10: the open batch and every closed batch hold at least
one file. -/
def AllNonempty (st : CrawlState) : Prop :=
  (∀ c, st.current = some c → 1 ≤ c.file_count) ∧ ∀ b ∈ st.batches, 1 ≤ b.file_count

/-- Invariant for C4: the open batch is under the limit, and every closed
batch is under the limit unless some node's python-file count explains the
overflow. -/
def LimitInv (L : Nat) (A : List Node) (st : CrawlState) : Prop :=
  (∀ c, st.current = some c → c.file_count < L) ∧
    ∀ b ∈ st.batches, b.file_count < L ∨
      ∃ n ∈ A, b.file_count ≤ L + (filter_python_files n.files).length

-- sanity checks on the embedding, mirroring concrete Python evaluations
example : splitPath "/a/b" = [[], ['a'], ['b']] := by decide
example : dirOf "/a/b/x.py" = "/a/b" := by decide
example : dirOf "x.py" = "" := by decide
example : osPathJoin "/a" "b" = "/a/b" := by decide
example : filter_python_files ["x.py", "y.txt", "z.py"] = ["x.py", "z.py"] := by decide
example : (Batch.mk "/a" [] false).rebalance_root.root = "" := by decide
example : ((Batch.mk "/a" [] false).add "/a/x.py").root = "/a" := by decide
example : ((Batch.mk "/a/b/c" ["/a/b/c/x.py"] false).add "/a/b/d/y.py").root = "/a/b" := by
  decide
example : (Batch.mk "/aa/bb" [] false).base_similar "a/b" = true := by decide
example : (Batch.mk "/a/b" [] false).base_similar "/a" = true := by decide
example : (Batch.mk "/a" ["/a/x.py", "/a/b/y.py"] false).top_level_directories = ["/a"] := by
  decide

/-! Helper lemmas about the path-string primitives. -/

theorem pySplitOn_ne_nil (sep : Char) (l : List Char) : pySplitOn sep l ≠ [] := by
  cases l with
  | nil => simp [pySplitOn]
  | cons a as =>
    simp only [pySplitOn]
    split
    · simp
    · split <;> simp

theorem splitPath_ne_nil (s : String) : splitPath s ≠ [] := pySplitOn_ne_nil '/' s.data

theorem joinSlash_cons_of_ne (x : List Char) (B : List (List Char)) (hB : B ≠ []) :
    joinSlash (x :: B) = x ++ '/' :: joinSlash B := by
  cases B with
  | nil => exact absurd rfl hB
  | cons y t => rfl

theorem join_split (l : List Char) : joinSlash (pySplitOn '/' l) = l := by
  induction l with
  | nil => rfl
  | cons a as ih =>
    simp only [pySplitOn]
    cases h : pySplitOn '/' as with
    | nil => exact absurd h (pySplitOn_ne_nil '/' as)
    | cons h0 t =>
      rw [h] at ih
      show joinSlash (if a = '/' then [] :: h0 :: t else (a :: h0) :: t) = a :: as
      by_cases ha : a = '/'
      · rw [if_pos ha, joinSlash_cons_of_ne [] (h0 :: t) (by simp), ih, ha]
        rfl
      · rw [if_neg ha]
        cases t with
        | nil =>
          have h2 : h0 = as := ih
          show a :: h0 = a :: as
          rw [h2]
        | cons t0 t1 =>
          show (a :: h0) ++ '/' :: joinSlash (t0 :: t1) = a :: as
          have ih2 : h0 ++ '/' :: joinSlash (t0 :: t1) = as := ih
          rw [List.cons_append, ih2]

theorem string_ext {a b : String} (h : a.data = b.data) : a = b := by
  cases a; cases b; exact congrArg String.mk (by simpa using h)

theorem splitPath_inj {a b : String} (h : splitPath a = splitPath b) : a = b := by
  apply string_ext
  have ha := join_split a.data
  have hb := join_split b.data
  rw [← ha, ← hb]
  simp only [splitPath] at h
  rw [h]

theorem join_dropLast_pfx (A : List (List Char)) :
    joinSlash A.dropLast <+: joinSlash A := by
  induction A with
  | nil => simp
  | cons x rest ih =>
    cases rest with
    | nil => simp [joinSlash]
    | cons y t =>
      rw [List.dropLast_cons_of_ne_nil (by simp)]
      rw [joinSlash_cons_of_ne x (y :: t) (by simp)]
      cases hB : (y :: t).dropLast with
      | nil =>
        exact ⟨'/' :: joinSlash (y :: t), rfl⟩
      | cons z t2 =>
        rw [joinSlash_cons_of_ne x (z :: t2) (by simp)]
        rw [hB] at ih
        obtain ⟨tail2, htail⟩ := ih
        exact ⟨tail2, by simp [← htail]⟩

theorem joinSlash_append (A B : List (List Char)) (hA : A ≠ []) (hB : B ≠ []) :
    joinSlash (A ++ B) = joinSlash A ++ '/' :: joinSlash B := by
  induction A with
  | nil => exact absurd rfl hA
  | cons x rest ih =>
    cases rest with
    | nil =>
      rw [List.singleton_append, joinSlash_cons_of_ne x B hB]
      rfl
    | cons y t =>
      rw [List.cons_append, joinSlash_cons_of_ne x ((y :: t) ++ B) (by simp),
        joinSlash_cons_of_ne x (y :: t) (by simp), ih (by simp)]
      simp

theorem isSubstr_refl (l : List Char) : isSubstr l l = true :=
  decide_eq_true (List.infix_refl l)

theorem isSubstr_of_pfx {l1 l2 : List Char} (h : l1 <+: l2) : isSubstr l1 l2 = true := by
  obtain ⟨t, ht⟩ := h
  exact decide_eq_true ⟨[], t, by simpa using ht⟩

theorem dirOf_data_pfx (s : String) : (dirOf s).data <+: s.data := by
  show joinSlash ((splitPath s).dropLast) <+: s.data
  have h := join_dropLast_pfx (splitPath s)
  rwa [show joinSlash (splitPath s) = s.data from join_split s.data] at h

/-! The zip-and-compare loop computes the longest common prefix. -/

theorem lcp2_pfx_left [DecidableEq α] (a b : List α) : lcp2 a b <+: a := by
  induction a generalizing b with
  | nil => simp [lcp2]
  | cons x xs ih =>
    cases b with
    | nil => simp [lcp2]
    | cons y ys =>
      simp only [lcp2]
      split
      next h => exact List.cons_prefix_cons.mpr ⟨rfl, ih ys⟩
      next h => exact List.nil_prefix

theorem lcp2_pfx_right [DecidableEq α] (a b : List α) : lcp2 a b <+: b := by
  induction a generalizing b with
  | nil => simp [lcp2]
  | cons x xs ih =>
    cases b with
    | nil => simp [lcp2]
    | cons y ys =>
      simp only [lcp2]
      split
      next h => exact List.cons_prefix_cons.mpr ⟨h, ih ys⟩
      next h => exact List.nil_prefix

theorem lcp2_greatest [DecidableEq α] {c a b : List α} (ha : c <+: a) (hb : c <+: b) :
    c <+: lcp2 a b := by
  induction c generalizing a b with
  | nil => exact List.nil_prefix
  | cons z zs ih =>
    cases a with
    | nil => simpa using ha.length_le
    | cons x xs =>
      cases b with
      | nil => simpa using hb.length_le
      | cons y ys =>
        obtain ⟨hzx, ha2⟩ := List.cons_prefix_cons.mp ha
        obtain ⟨hzy, hb2⟩ := List.cons_prefix_cons.mp hb
        simp only [lcp2]
        rw [if_pos (hzx ▸ hzy ▸ rfl)]
        exact List.cons_prefix_cons.mpr ⟨hzx, ih ha2 hb2⟩

theorem foldl_lcp2_pfx [DecidableEq α] (t : List (List α)) (acc : List α) :
    (t.foldl lcp2 acc <+: acc) ∧ ∀ l ∈ t, t.foldl lcp2 acc <+: l := by
  induction t generalizing acc with
  | nil => exact ⟨List.prefix_refl acc, by simp⟩
  | cons x xs ih =>
    obtain ⟨h1, h2⟩ := ih (lcp2 acc x)
    refine ⟨h1.trans (lcp2_pfx_left acc x), ?_⟩
    intro l hl
    rcases List.mem_cons.mp hl with rfl | hl2
    · exact h1.trans (lcp2_pfx_right acc l)
    · exact h2 l hl2

theorem foldl_lcp2_greatest [DecidableEq α] {c : List α} (t : List (List α)) (acc : List α)
    (hacc : c <+: acc) (ht : ∀ l ∈ t, c <+: l) : c <+: t.foldl lcp2 acc := by
  induction t generalizing acc with
  | nil => exact hacc
  | cons x xs ih =>
    exact ih (lcp2 acc x) (lcp2_greatest hacc (ht x (by simp)))
      (fun l hl => ht l (List.mem_cons_of_mem x hl))

theorem lcpAll_isLCP [DecidableEq α] (ls : List (List α)) (h : ls ≠ []) :
    IsLCP ls (lcpAll ls) := by
  cases ls with
  | nil => exact absurd rfl h
  | cons l0 t =>
    constructor
    · intro l hl
      rcases List.mem_cons.mp hl with rfl | hl2
      · exact (foldl_lcp2_pfx t l).1
      · exact (foldl_lcp2_pfx t l0).2 l hl2
    · intro c hc
      exact foldl_lcp2_greatest t l0 (hc l0 (by simp))
        (fun l hl => hc l (List.mem_cons_of_mem l0 hl))

theorem isLCP_unique {ls : List (List α)} {r1 r2 : List α}
    (h1 : IsLCP ls r1) (h2 : IsLCP ls r2) : r1 = r2 :=
  (h2.2 r1 h1.1).eq_of_length
    (Nat.le_antisymm (h2.2 r1 h1.1).length_le (h1.2 r2 h2.1).length_le)

theorem zipStarAux_isLCP [DecidableEq α] (l0 : List α) (rest : List (List α)) :
    IsLCP (l0 :: rest) (lcpLoop (zipStarAux l0 rest)) := by
  induction l0 generalizing rest with
  | nil =>
    constructor
    · intro l hl
      exact List.nil_prefix
    · intro c hc
      exact hc [] (by simp [zipStarAux])
  | cons x xs ih =>
    by_cases hemp : rest.any List.isEmpty
    · simp only [zipStarAux, if_pos hemp, lcpLoop]
      obtain ⟨l, hl, hle⟩ := List.any_eq_true.mp hemp
      have hlnil : l = [] := by simpa using hle
      constructor
      · intro l2 hl2
        exact List.nil_prefix
      · intro c hc
        have := hc l (List.mem_cons_of_mem _ hl)
        rw [hlnil] at this
        simpa using this
    · have hne : ∀ l ∈ rest, l ≠ [] := by
        intro l hl hnil
        exact hemp (List.any_eq_true.mpr ⟨l, hl, by simp [hnil]⟩)
      simp only [zipStarAux, if_neg hemp, lcpLoop]
      by_cases hall : ((x :: rest.filterMap List.head?).all (fun y => decide (y = x))) = true
      · rw [if_pos hall]
        have hhead : ∀ l ∈ rest, ∃ lt, l = x :: lt ∧ lt ∈ rest.map List.tail := by
          intro l hl
          cases l with
          | nil => exact absurd rfl (hne _ hl)
          | cons lh lt =>
            have hmem : lh ∈ rest.filterMap List.head? :=
              List.mem_filterMap.mpr ⟨lh :: lt, hl, rfl⟩
            have hx : lh = x := by
              have := List.all_eq_true.mp hall lh (List.mem_cons_of_mem _ hmem)
              simpa using this
            exact ⟨lt, by rw [hx], List.mem_map.mpr ⟨lh :: lt, hl, rfl⟩⟩
        obtain ⟨ihp, ihg⟩ := ih (rest.map List.tail)
        constructor
        · intro l hl
          rcases List.mem_cons.mp hl with rfl | hl2
          · exact List.cons_prefix_cons.mpr ⟨rfl, ihp xs (by simp)⟩
          · obtain ⟨lt, rfl, hlt⟩ := hhead l hl2
            exact List.cons_prefix_cons.mpr ⟨rfl, ihp lt (List.mem_cons_of_mem _ hlt)⟩
        · intro c hc
          cases c with
          | nil => exact List.nil_prefix
          | cons y c2 =>
            obtain ⟨hyx, hc2⟩ := List.cons_prefix_cons.mp (hc (x :: xs) (by simp))
            refine List.cons_prefix_cons.mpr ⟨hyx, ihg c2 ?_⟩
            intro l hl
            rcases List.mem_cons.mp hl with rfl | hl2
            · exact hc2
            · obtain ⟨l0, hl0, rfl⟩ := List.mem_map.mp hl2
              obtain ⟨lt, heq, _⟩ := hhead l0 hl0
              rw [heq]
              have := hc l0 (List.mem_cons_of_mem _ hl0)
              rw [heq] at this
              exact (List.cons_prefix_cons.mp this).2
      · rw [if_neg hall]
        constructor
        · intro l hl
          exact List.nil_prefix
        · intro c hc
          cases c with
          | nil => exact List.prefix_refl []
          | cons y c2 =>
            exfalso
            apply hall
            rw [List.all_eq_true]
            intro z hz
            obtain ⟨hyx, _⟩ := List.cons_prefix_cons.mp (hc (x :: xs) (by simp))
            rcases List.mem_cons.mp hz with rfl | hz2
            · simp
            · obtain ⟨l, hl, hlz⟩ := List.mem_filterMap.mp hz2
              cases l with
              | nil => exact absurd rfl (hne _ hl)
              | cons lh lt =>
                have hz3 : lh = z := by simpa using hlz
                have := List.cons_prefix_cons.mp (hc (lh :: lt) (List.mem_cons_of_mem _ hl))
                simp [← hz3, ← this.1, hyx]

theorem lcpLoop_pyZipStar_eq_lcpAll [DecidableEq α] (ls : List (List α)) (h : ls ≠ []) :
    lcpLoop (pyZipStar ls) = lcpAll ls := by
  cases ls with
  | nil => exact absurd rfl h
  | cons l0 rest =>
    exact isLCP_unique (zipStarAux_isLCP l0 rest) (lcpAll_isLCP (l0 :: rest) (by simp))

theorem lcpAll_congr [DecidableEq α] {ls1 ls2 : List (List α)} (h1 : ls1 ≠ []) (h2 : ls2 ≠ [])
    (hm : ∀ x, x ∈ ls1 ↔ x ∈ ls2) : lcpAll ls1 = lcpAll ls2 := by
  obtain ⟨p1, g1⟩ := lcpAll_isLCP ls1 h1
  obtain ⟨p2, g2⟩ := lcpAll_isLCP ls2 h2
  refine isLCP_unique ⟨p1, g1⟩ ⟨fun l hl => p2 l ((hm l).mp hl), ?_⟩
  intro c hc
  exact g2 c (fun l hl => hc l ((hm l).mpr hl))

/-! Facts about Batch operations. -/

theorem Batch.rebalance_files (b : Batch) : b.rebalance_root.files = b.files := rfl

theorem Batch.rebalance_blocked (b : Batch) : b.rebalance_root.blocked = b.blocked := rfl

theorem Batch.add_files (b : Batch) (f : String) : (b.add f).files = b.files ++ [f] := rfl

theorem Batch.add_blocked (b : Batch) (f : String) : (b.add f).blocked = b.blocked := rfl

theorem foldl_add_files (ps : List String) (b : Batch) :
    (ps.foldl Batch.add b).files = b.files ++ ps := by
  induction ps generalizing b with
  | nil => simp
  | cons p t ih => simp [List.foldl_cons, ih, Batch.add_files]

theorem foldl_add_blocked (ps : List String) (b : Batch) :
    (ps.foldl Batch.add b).blocked = b.blocked := by
  induction ps generalizing b with
  | nil => rfl
  | cons p t ih => simp [List.foldl_cons, ih, Batch.add_blocked]

theorem foldl_add_count (ps : List String) (b : Batch) :
    (ps.foldl Batch.add b).file_count = b.file_count + ps.length := by
  simp [Batch.file_count, foldl_add_files]

/-- The root recomputed by `rebalance_root` is exactly `'/'.join` of the
longest common component prefix of the containing directories of the files. -/
theorem rebalance_root_spec (b : Batch) (h : b.files ≠ []) :
    b.rebalance_root.root =
      ⟨joinSlash (lcpAll (b.files.map (fun f => splitPath (dirOf f))))⟩ := by
  show (⟨joinSlash (lcpLoop (pyZipStar (b.directories.map splitPath)))⟩ : String) = _
  have hne1 : b.directories.map splitPath ≠ [] := by
    simp [Batch.directories, List.dedup_eq_nil]
    exact h
  have hne2 : b.files.map (fun f => splitPath (dirOf f)) ≠ [] := by
    simpa using h
  rw [lcpLoop_pyZipStar_eq_lcpAll _ hne1]
  exact congrArg (fun l => (⟨joinSlash l⟩ : String))
    (lcpAll_congr hne1 hne2 (fun x => by
      simp [Batch.directories, List.mem_map, List.mem_dedup]))

theorem base_similar_self (b : Batch) : b.base_similar b.root = true := by
  simp [Batch.base_similar]

theorem base_similar_iff (b : Batch) (o : String) :
    b.base_similar o = true ↔
      (b.root = o ∨ (splitPath b.root).dropLast = (splitPath o).dropLast ∨
        isSubstr o.data b.root.data = true) := by
  unfold Batch.base_similar
  split_ifs with h1 h2 h3 <;> simp_all

theorem pyListRemove_eq_none {x : String} {l : List String} (h : x ∉ l) :
    pyListRemove x l = none := by
  induction l with
  | nil => rfl
  | cons y ys ih =>
    have hyx : ¬ y = x := fun h2 => h (h2 ▸ List.mem_cons_self y ys)
    simp only [pyListRemove, if_neg hyx,
      ih (fun h2 => h (List.mem_cons_of_mem y h2)), Option.map_none']

theorem pyListRemove_some {x : String} {l : List String} (h : x ∈ l) :
    ∃ l2, pyListRemove x l = some l2 ∧ ∀ y, (y ∈ l ↔ y ∈ l2 ∨ y = x) := by
  induction l with
  | nil => simp at h
  | cons z zs ih =>
    by_cases hzx : z = x
    · refine ⟨zs, by simp [pyListRemove, hzx], fun y => ?_⟩
      subst hzx
      constructor
      · intro hy
        rcases List.mem_cons.mp hy with rfl | h2
        · exact Or.inr rfl
        · exact Or.inl h2
      · rintro (h2 | rfl)
        · exact List.mem_cons_of_mem _ h2
        · exact List.mem_cons_self _ _
    · have hx2 : x ∈ zs := by
        rcases List.mem_cons.mp h with h1 | h2
        · exact absurd h1.symm hzx
        · exact h2
      obtain ⟨l2, hl2, hmem⟩ := ih hx2
      refine ⟨z :: l2, by simp [pyListRemove, hzx, hl2], fun y => ?_⟩
      constructor
      · intro hy
        rcases List.mem_cons.mp hy with rfl | h2
        · exact Or.inl (List.mem_cons_self _ _)
        · rcases (hmem y).mp h2 with h3 | h3
          · exact Or.inl (List.mem_cons_of_mem _ h3)
          · exact Or.inr h3
      · rintro (h2 | rfl)
        · rcases List.mem_cons.mp h2 with rfl | h3
          · exact List.mem_cons_self _ _
          · exact List.mem_cons_of_mem _ ((hmem y).mpr (Or.inl h3))
        · exact List.mem_cons_of_mem _ ((hmem y).mpr (Or.inr rfl))

theorem two_le_length_of_mem_ne {l : List α} {a b : α} (ha : a ∈ l) (hb : b ∈ l)
    (hab : a ≠ b) : 2 ≤ l.length := by
  induction l with
  | nil => simp at ha
  | cons x xs ih =>
    rcases List.mem_cons.mp ha with rfl | ha2
    · rcases List.mem_cons.mp hb with rfl | hb2
      · exact absurd rfl hab
      · have := List.length_pos_of_mem hb2
        simp only [List.length_cons]
        omega
    · rcases List.mem_cons.mp hb with rfl | hb2
      · have := List.length_pos_of_mem ha2
        simp only [List.length_cons]
        omega
      · have := ih ha2 hb2
        simp only [List.length_cons]
        omega

/-! Claims about the Batch component. -/

/-- C1, counterexample: with root `/aa/bb` and candidate `a/b`,
`base_similar` returns true although the candidate is not the root, not its
parent directory, does not share its parent directory (componentwise or as
strings), and is not a sub-path of the root in either direction — the true
result comes from raw substring containment of `a/b` in `/aa/bb`. -/
theorem C1_counterexample :
    (Batch.mk "/aa/bb" [] false).base_similar "a/b" = true ∧
      ¬(("a/b" : String) = "/aa/bb" ∨
        ("a/b" : String) = dirOf "/aa/bb" ∨
        (splitPath "a/b").dropLast = (splitPath "/aa/bb").dropLast ∨
        dirOf "a/b" = dirOf "/aa/bb" ∨
        splitPath "/aa/bb" <+: splitPath "a/b" ∨
        splitPath "a/b" <+: splitPath "/aa/bb") := by
  constructor
  · decide
  · decide

/-- C1 (amended): `base_similar(other_root)` is true exactly when
`other_root` equals the root, or the two roots' parent component lists
(`split('/')[:-1]`) agree, or `other_root` occurs as a raw character
substring of the root (not a component-wise sub-path test); the Python
branch comparing the root's parent list against the `other_root` string
never fires, but since the parent directory string of the root is always a
substring of the root, the function still returns true whenever
`other_root` equals the parent directory of the root. -/
theorem C1_base_similar_amended (b : Batch) (other_root : String) :
    (b.base_similar other_root = true ↔
      (b.root = other_root ∨
        (splitPath b.root).dropLast = (splitPath other_root).dropLast ∨
        isSubstr other_root.data b.root.data = true)) ∧
    (other_root = dirOf b.root → b.base_similar other_root = true) := by
  refine ⟨base_similar_iff b other_root, fun h => ?_⟩
  refine (base_similar_iff b other_root).mpr (Or.inr (Or.inr ?_))
  rw [h]
  exact isSubstr_of_pfx (dirOf_data_pfx b.root)

/-- C1, witness: with root `/a/b`, the parent directory `/a` is accepted. -/
theorem C1_witness : (Batch.mk "/a/b" [] false).base_similar "/a" = true :=
  (C1_base_similar_amended (Batch.mk "/a/b" [] false) "/a").2 (by decide)

/-- C2, counterexample: rebalancing a batch with no files does not leave the
root unchanged — a batch rooted at `/a` with an empty files list gets the
empty string as its new root. -/
theorem C2_counterexample :
    (Batch.mk "/a" [] false).rebalance_root.root = "" ∧
      (Batch.mk "/a" [] false).rebalance_root.root ≠ (Batch.mk "/a" [] false).root := by
  constructor
  · decide
  · decide

/-- C2 (amended): calling `rebalance_root` on a Batch whose files list is
empty is not an error, but it is not a no-op on the root either: the loop
over `zip()` of no directories runs zero times and `'/'.join([])` sets the
root to the empty string, leaving files and blocked unchanged. -/
theorem C2_rebalance_empty (r : String) (bl : Bool) :
    (Batch.mk r [] bl).rebalance_root = Batch.mk "" [] bl := rfl

/-- C3 (confirmed): after every `add`, the root equals `'/'.join` of the
longest common path-component prefix (split on `'/'`, compared position by
position, stopping at the first mismatch or the shortest length) of the
containing directories of all files currently in the batch. -/
theorem C3_add_root_is_lcp (b : Batch) (f : String) :
    (b.add f).root =
      ⟨joinSlash (lcpAll ((b.add f).files.map (fun g => splitPath (dirOf g))))⟩ := by
  show (Batch.rebalance_root { b with files := b.files ++ [f] }).root = _
  rw [rebalance_root_spec _ (by simp)]
  rfl

/-- C7 (confirmed): `top_level_directories` never contains a directory that
lies strictly underneath (component-wise) another directory of the same
batch: if `d` is a returned directory and `d2` is a batch directory whose
component list is a prefix of `d`'s, then `d = d2`. -/
theorem C7_top_level_not_nested (b : Batch) (d d2 : String)
    (hd : d ∈ b.top_level_directories) (hd2 : d2 ∈ b.directories)
    (hsub : splitPath d2 <+: splitPath d) : d = d2 := by
  by_cases heq : splitPath d = splitPath d2
  · exact splitPath_inj heq
  exfalso
  obtain ⟨hdmem, hcount⟩ := List.mem_filter.mp hd
  have hlen : (b.directories.filter (fun x => isSubstr x.data d.data)).length = 1 := by
    simpa using hcount
  have hdin : d ∈ b.directories.filter (fun x => isSubstr x.data d.data) :=
    List.mem_filter.mpr ⟨hdmem, isSubstr_refl d.data⟩
  obtain ⟨t, ht⟩ := hsub
  have htne : t ≠ [] := by
    intro h0
    rw [h0, List.append_nil] at ht
    exact heq ht.symm
  have hdata : d.data = d2.data ++ '/' :: joinSlash t := by
    have hj : joinSlash (splitPath d) = d.data := join_split d.data
    rw [← ht, joinSlash_append _ _ (splitPath_ne_nil d2) htne] at hj
    rw [← hj, show joinSlash (splitPath d2) = d2.data from join_split d2.data]
  have hd2in : d2 ∈ b.directories.filter (fun x => isSubstr x.data d.data) :=
    List.mem_filter.mpr ⟨hd2, isSubstr_of_pfx ⟨'/' :: joinSlash t, hdata.symm⟩⟩
  have hne2 : d ≠ d2 := fun hdd => heq (by rw [hdd])
  have := two_le_length_of_mem_ne hdin hd2in hne2
  omega

/-- C7, witness: for a batch over `/a/x.py`, the directory `/a` is returned
and is compared against itself. -/
theorem C7_witness :
    "/a" ∈ (Batch.mk "/a" ["/a/x.py"] false).top_level_directories ∧
      ("/a" : String) = "/a" :=
  ⟨by decide, C7_top_level_not_nested (Batch.mk "/a" ["/a/x.py"] false) "/a" "/a"
    (by decide) (by decide) (by decide)⟩

/-- C8 (confirmed): removing a path that is not in the batch surfaces
Python's `ValueError` from `list.remove` (modelled as `Except.error`), so
the call fails before `rebalance_root` runs and the batch is unchanged. -/
theorem C8_remove_absent_errors (b : Batch) (f : String) (h : f ∉ b.files) :
    b.remove f = Except.error "list.remove(x): x not in list" := by
  unfold Batch.remove
  rw [pyListRemove_eq_none h]

/-- C8, witness: removing from an empty batch errors. -/
theorem C8_witness :
    ("x.py" : String) ∉ (Batch.mk "" [] false).files ∧
      (Batch.mk "" [] false).remove "x.py" =
        Except.error "list.remove(x): x not in list" :=
  ⟨by decide, C8_remove_absent_errors (Batch.mk "" [] false) "x.py" (by decide)⟩

/-- C9 (confirmed): for a batch whose root satisfies the documented root
invariant (as every batch with files produced by `add`/`remove` does),
removing a present path and adding it back yields the same files up to set
membership and restores the original root. -/
theorem C9_remove_add_roundtrip (b : Batch) (p : String)
    (hp : p ∈ b.files) (hroot : b.root = b.rebalance_root.root) :
    ∃ b1, b.remove p = Except.ok b1 ∧
      (∀ x, x ∈ (b1.add p).files ↔ x ∈ b.files) ∧ (b1.add p).root = b.root := by
  obtain ⟨l2, hl2, hmem⟩ := pyListRemove_some hp
  have hbne : b.files ≠ [] := List.ne_nil_of_mem hp
  refine ⟨Batch.rebalance_root { b with files := l2 }, ?_, ?_, ?_⟩
  · unfold Batch.remove
    rw [hl2]
  · intro x
    show x ∈ l2 ++ [p] ↔ x ∈ b.files
    rw [List.mem_append, List.mem_singleton]
    exact (hmem x).symm
  · show (Batch.rebalance_root { b with files := l2 ++ [p] }).root = b.root
    rw [rebalance_root_spec _ (by simp), hroot, rebalance_root_spec b hbne]
    refine congrArg (fun l => (⟨joinSlash l⟩ : String)) (lcpAll_congr (by simp) ?_ ?_)
    · simpa using hbne
    · intro x
      simp only [List.mem_map, List.mem_append, List.mem_singleton]
      constructor
      · rintro ⟨y, hy, rfl⟩
        exact ⟨y, (hmem y).mpr hy, rfl⟩
      · rintro ⟨y, hy, rfl⟩
        exact ⟨y, (hmem y).mp hy, rfl⟩

/-- C9, witness: remove then re-add `/a/x.py` on a two-file batch. -/
theorem C9_witness :
    ∃ b1, (Batch.mk "/a" ["/a/x.py", "/a/y.py"] false).remove "/a/x.py" = Except.ok b1 ∧
      (∀ x, x ∈ (b1.add "/a/x.py").files ↔
        x ∈ (Batch.mk "/a" ["/a/x.py", "/a/y.py"] false).files) ∧
      (b1.add "/a/x.py").root = (Batch.mk "/a" ["/a/x.py", "/a/y.py"] false).root :=
  C9_remove_add_roundtrip (Batch.mk "/a" ["/a/x.py", "/a/y.py"] false) "/a/x.py"
    (by decide) (by decide)

/-! Facts about the crawl loop. -/

theorem crawlScope_eq_none {st : CrawlState} (root : String) (h : st.current = none) :
    crawlScope st root = (st.batches, Batch.mk root [] false) := by
  unfold crawlScope
  rw [h]
  have : (Batch.mk root [] false).base_similar root = true := base_similar_self _
  simp [this]

theorem crawlScope_eq_some_sim {st : CrawlState} {c : Batch} (root : String)
    (h : st.current = some c) (hs : c.base_similar root = true) :
    crawlScope st root = (st.batches, c) := by
  unfold crawlScope
  rw [h]
  simp [hs]

theorem crawlScope_eq_some_dis {st : CrawlState} {c : Batch} (root : String)
    (h : st.current = some c) (hs : c.base_similar root = false) :
    crawlScope st root = (st.batches ++ [c], Batch.mk root [] false) := by
  unfold crawlScope
  rw [h]
  simp [hs]

theorem markBlocked_eq_true {bc : List Batch × Batch} {root : String} {dirs : List String}
    (h : check_if_blocked bc.1 root dirs = true) :
    markBlocked bc root dirs = (bc.1, { bc.2 with blocked := true }) := by
  simp [markBlocked, h]

theorem markBlocked_fst (bc : List Batch × Batch) (root : String) (dirs : List String) :
    (markBlocked bc root dirs).1 = bc.1 := by
  unfold markBlocked
  split <;> rfl

theorem markBlocked_snd_files (bc : List Batch × Batch) (root : String) (dirs : List String) :
    (markBlocked bc root dirs).2.files = bc.2.files := by
  unfold markBlocked
  split <;> rfl

theorem markBlocked_snd_count (bc : List Batch × Batch) (root : String) (dirs : List String) :
    (markBlocked bc root dirs).2.file_count = bc.2.file_count := by
  simp [Batch.file_count, markBlocked_snd_files]

theorem addAndClose_cases (L : Nat) (bc : List Batch × Batch) (paths : List String) :
    (addAndClose L bc paths = ⟨bc.1 ++ [paths.foldl Batch.add bc.2], none⟩ ∧
        L ≤ (paths.foldl Batch.add bc.2).file_count) ∨
      (addAndClose L bc paths = ⟨bc.1, some (paths.foldl Batch.add bc.2)⟩ ∧
        (paths.foldl Batch.add bc.2).file_count < L) := by
  by_cases h : L ≤ (paths.foldl Batch.add bc.2).file_count
  · exact Or.inl ⟨by simp [addAndClose, h], h⟩
  · exact Or.inr ⟨by simp [addAndClose, h], by omega⟩

theorem crawlStep_skip (L : Nat) (st : CrawlState) (n : Node)
    (h : (filter_python_files n.files).length < 1) : crawlStep L st n = st := by
  simp [crawlStep, h]

theorem crawlStep_go (L : Nat) (st : CrawlState) (n : Node)
    (h : ¬ (filter_python_files n.files).length < 1) :
    crawlStep L st n =
      addAndClose L (markBlocked (crawlScope st n.root) n.root n.dirs)
        ((filter_python_files n.files).map (osPathJoin n.root)) := by
  simp [crawlStep, h]

/-! Claims about the crawl orchestration. -/

theorem crawlStep_nonempty (L : Nat) (st : CrawlState) (n : Node)
    (h : AllNonempty st) : AllNonempty (crawlStep L st n) := by
  by_cases h1 : (filter_python_files n.files).length < 1
  · rw [crawlStep_skip L st n h1]
    exact h
  rw [crawlStep_go L st n h1]
  have hplen : 1 ≤ ((filter_python_files n.files).map (osPathJoin n.root)).length := by
    rw [List.length_map]
    omega
  have hbc : ∀ bc : List Batch × Batch, (∀ b ∈ bc.1, 1 ≤ b.file_count) →
      AllNonempty (addAndClose L (markBlocked bc n.root n.dirs)
        ((filter_python_files n.files).map (osPathJoin n.root))) := by
    intro bc hbc1
    rcases addAndClose_cases L (markBlocked bc n.root n.dirs)
        ((filter_python_files n.files).map (osPathJoin n.root)) with ⟨heq, _⟩ | ⟨heq, _⟩ <;>
      rw [heq]
    · refine ⟨fun c hc => by simp at hc, fun b hb => ?_⟩
      rcases List.mem_append.mp hb with h2 | h2
      · exact hbc1 b (by rw [markBlocked_fst] at h2; exact h2)
      · rw [List.mem_singleton] at h2
        subst h2
        rw [foldl_add_count]
        omega
    · refine ⟨fun c hc => ?_, fun b hb => hbc1 b (by rw [markBlocked_fst] at hb; exact hb)⟩
      have hc2 := Option.some.inj hc
      rw [← hc2, foldl_add_count]
      omega
  cases hcur : st.current with
  | none =>
    rw [crawlScope_eq_none n.root hcur]
    exact hbc _ h.2
  | some c =>
    by_cases hs : c.base_similar n.root = true
    · rw [crawlScope_eq_some_sim n.root hcur hs]
      exact hbc _ h.2
    · rw [crawlScope_eq_some_dis n.root hcur (by simpa using hs)]
      refine hbc _ ?_
      intro b hb
      rcases List.mem_append.mp hb with h2 | h2
      · exact h.2 b h2
      · rw [List.mem_singleton] at h2
        subst h2
        exact h.1 b hcur

theorem foldl_nonempty (L : Nat) (suf : List Node) (st : CrawlState)
    (h : AllNonempty st) : AllNonempty (List.foldl (crawlStep L) st suf) := by
  induction suf generalizing st with
  | nil => exact h
  | cons n t ih => exact ih (crawlStep L st n) (crawlStep_nonempty L st n h)

theorem crawl_eq (nodes : List Node) (L : Nat) :
    crawl nodes L =
      match (List.foldl (crawlStep L) crawlInit nodes).current with
      | some c => (List.foldl (crawlStep L) crawlInit nodes).batches ++ [c]
      | none => (List.foldl (crawlStep L) crawlInit nodes).batches := rfl

/-- C10 (confirmed): every batch in the list returned by `crawl` holds at
least one file; a batch only opens at a node with at least one python file
and that node's files are added before any close can happen. -/
theorem C10_no_empty_batches (nodes : List Node) (L : Nat) (b : Batch)
    (hb : b ∈ crawl nodes L) : 1 ≤ b.file_count := by
  have hinv : AllNonempty (List.foldl (crawlStep L) crawlInit nodes) :=
    foldl_nonempty L nodes crawlInit ⟨fun c hc => by simp [crawlInit] at hc, by simp [crawlInit]⟩
  rw [crawl_eq] at hb
  rcases hfin : (List.foldl (crawlStep L) crawlInit nodes).current with _ | c
  · rw [hfin] at hb
    exact hinv.2 b hb
  · rw [hfin] at hb
    rcases List.mem_append.mp hb with h2 | h2
    · exact hinv.2 b h2
    · rw [List.mem_singleton] at h2
      subst h2
      exact hinv.1 b hfin

/-- C10, witness: a single node with one python file yields one batch with
one file. -/
theorem C10_witness : 1 ≤ (Batch.mk "/a" ["/a/x.py"] false).file_count :=
  C10_no_empty_batches [Node.mk "/a" [] ["x.py"]] 10 (Batch.mk "/a" ["/a/x.py"] false)
    (by decide)

theorem crawlStep_batches_mono (L : Nat) (st : CrawlState) (n : Node) :
    st.batches <+: (crawlStep L st n).batches := by
  by_cases h1 : (filter_python_files n.files).length < 1
  · rw [crawlStep_skip L st n h1]
  rw [crawlStep_go L st n h1]
  have hbc : ∀ bc : List Batch × Batch, st.batches <+: bc.1 →
      st.batches <+:
        (addAndClose L (markBlocked bc n.root n.dirs)
          ((filter_python_files n.files).map (osPathJoin n.root))).batches := by
    intro bc hpre
    rcases addAndClose_cases L (markBlocked bc n.root n.dirs)
        ((filter_python_files n.files).map (osPathJoin n.root)) with ⟨heq, _⟩ | ⟨heq, _⟩ <;>
      rw [heq] <;> rw [markBlocked_fst]
    · exact hpre.trans (List.prefix_append bc.1 _)
    · exact hpre
  cases hcur : st.current with
  | none =>
    rw [crawlScope_eq_none n.root hcur]
    exact hbc _ (List.prefix_refl _)
  | some c =>
    by_cases hs : c.base_similar n.root = true
    · rw [crawlScope_eq_some_sim n.root hcur hs]
      exact hbc _ (List.prefix_refl _)
    · rw [crawlScope_eq_some_dis n.root hcur (by simpa using hs)]
      exact hbc _ (List.prefix_append _ _)

theorem foldl_batches_mono (L : Nat) (suf : List Node) (st : CrawlState) :
    st.batches <+: (List.foldl (crawlStep L) st suf).batches := by
  induction suf generalizing st with
  | nil => exact List.prefix_refl _
  | cons n t ih => exact (crawlStep_batches_mono L st n).trans (ih (crawlStep L st n))

/-- C5 (confirmed): once a batch has been appended to the closed list, no
later step of the crawl changes it: the closed list after any prefix of the
traversal is a list prefix both of the closed list at every later point and
of the final result of `crawl`, so each closed batch keeps its `root`,
`files` and `blocked` values, at its position, to the end of the run. -/
theorem C5_closed_immutable (L : Nat) (pre suf : List Node) :
    (List.foldl (crawlStep L) crawlInit pre).batches <+:
        (List.foldl (crawlStep L) crawlInit (pre ++ suf)).batches ∧
      (List.foldl (crawlStep L) crawlInit pre).batches <+: crawl (pre ++ suf) L := by
  have h1 : (List.foldl (crawlStep L) crawlInit pre).batches <+:
      (List.foldl (crawlStep L) crawlInit (pre ++ suf)).batches := by
    rw [List.foldl_append]
    exact foldl_batches_mono L suf _
  refine ⟨h1, ?_⟩
  rw [crawl_eq]
  rcases hfin : (List.foldl (crawlStep L) crawlInit (pre ++ suf)).current with _ | c
  · exact h1
  · exact h1.trans (List.prefix_append _ _)

/-- C5, witness: after one node of a two-node traversal, the closed list is
a prefix of the final result. -/
theorem C5_witness :
    (List.foldl (crawlStep 1) crawlInit [Node.mk "/a/b" [] ["x.py"]]).batches <+:
        (List.foldl (crawlStep 1) crawlInit
          ([Node.mk "/a/b" [] ["x.py"]] ++ [Node.mk "/c" [] ["y.py"]])).batches ∧
      (List.foldl (crawlStep 1) crawlInit [Node.mk "/a/b" [] ["x.py"]]).batches <+:
        crawl ([Node.mk "/a/b" [] ["x.py"]] ++ [Node.mk "/c" [] ["y.py"]]) 1 :=
  C5_closed_immutable 1 [Node.mk "/a/b" [] ["x.py"]] [Node.mk "/c" [] ["y.py"]]

theorem crawlStep_limit (L : Nat) (A : List Node) (st : CrawlState) (n : Node) (hn : n ∈ A)
    (h : LimitInv L A st) : LimitInv L A (crawlStep L st n) := by
  by_cases h1 : (filter_python_files n.files).length < 1
  · rw [crawlStep_skip L st n h1]
    exact h
  rw [crawlStep_go L st n h1]
  have hbc : ∀ bc : List Batch × Batch,
      (∀ b ∈ bc.1, b.file_count < L ∨
        ∃ n2 ∈ A, b.file_count ≤ L + (filter_python_files n2.files).length) →
      bc.2.file_count ≤ L →
      LimitInv L A (addAndClose L (markBlocked bc n.root n.dirs)
        ((filter_python_files n.files).map (osPathJoin n.root))) := by
    intro bc hbc1 hbc2
    rcases addAndClose_cases L (markBlocked bc n.root n.dirs)
        ((filter_python_files n.files).map (osPathJoin n.root)) with ⟨heq, hcnt⟩ | ⟨heq, hcnt⟩ <;>
      rw [heq]
    · refine ⟨fun c hc => by simp at hc, fun b hb => ?_⟩
      rw [markBlocked_fst] at hb
      rcases List.mem_append.mp hb with h2 | h2
      · exact hbc1 b h2
      · rw [List.mem_singleton] at h2
        subst h2
        refine Or.inr ⟨n, hn, ?_⟩
        rw [foldl_add_count, markBlocked_snd_count, List.length_map]
        omega
    · refine ⟨fun c hc => ?_, fun b hb => hbc1 b (by rw [markBlocked_fst] at hb; exact hb)⟩
      rw [← Option.some.inj hc]
      exact hcnt
  cases hcur : st.current with
  | none =>
    rw [crawlScope_eq_none n.root hcur]
    exact hbc _ h.2 (by simp [Batch.file_count])
  | some c =>
    by_cases hs : c.base_similar n.root = true
    · rw [crawlScope_eq_some_sim n.root hcur hs]
      exact hbc _ h.2 (Nat.le_of_lt (h.1 c hcur))
    · rw [crawlScope_eq_some_dis n.root hcur (by simpa using hs)]
      refine hbc _ ?_ (by simp [Batch.file_count])
      intro b hb
      rcases List.mem_append.mp hb with h2 | h2
      · exact h.2 b h2
      · rw [List.mem_singleton] at h2
        subst h2
        exact Or.inl (h.1 b hcur)

theorem foldl_limit (L : Nat) (A : List Node) (suf : List Node) (st : CrawlState)
    (hsub : ∀ n ∈ suf, n ∈ A) (h : LimitInv L A st) :
    LimitInv L A (List.foldl (crawlStep L) st suf) := by
  induction suf generalizing st with
  | nil => exact h
  | cons n t ih =>
    exact ih (crawlStep L st n)
      (fun n2 hn2 => hsub n2 (List.mem_cons_of_mem n hn2))
      (crawlStep_limit L A st n (hsub n (List.mem_cons_self n t)) h)

/-- C4 (confirmed): every batch closed by `crawl` has at most `L` plus the
python-file count of the single node whose processing closed it (batches
closed for scope change or at end of traversal are under `L` outright), and
the limit is never enforced mid-addition: at the start of each node's
processing the open batch has fewer than `L` files. -/
theorem C4_limit_overflow (nodes : List Node) (L : Nat) :
    (∀ b ∈ crawl nodes L, b.file_count < L ∨
      ∃ n ∈ nodes, b.file_count ≤ L + (filter_python_files n.files).length) ∧
    ∀ pre suf, nodes = pre ++ suf →
      ∀ c, (List.foldl (crawlStep L) crawlInit pre).current = some c → c.file_count < L := by
  have hinit : LimitInv L nodes crawlInit :=
    ⟨fun c hc => by simp [crawlInit] at hc, by simp [crawlInit]⟩
  have hinv := foldl_limit L nodes nodes crawlInit (fun n hn => hn) hinit
  constructor
  · intro b hb
    rw [crawl_eq] at hb
    rcases hfin : (List.foldl (crawlStep L) crawlInit nodes).current with _ | c
    · rw [hfin] at hb
      exact hinv.2 b hb
    · rw [hfin] at hb
      rcases List.mem_append.mp hb with h2 | h2
      · exact hinv.2 b h2
      · rw [List.mem_singleton] at h2
        subst h2
        exact Or.inl (hinv.1 b hfin)
  · intro pre suf hsplit c hc
    have hpre : LimitInv L nodes (List.foldl (crawlStep L) crawlInit pre) :=
      foldl_limit L nodes pre crawlInit
        (fun n hn => by rw [hsplit]; exact List.mem_append.mpr (Or.inl hn)) hinit
    exact hpre.1 c hc

/-- C4, witness: with limit 1, the single-node crawl closes a batch of one
file, within limit plus that node's python-file count. -/
theorem C4_witness :
    ((Batch.mk "/a" ["/a/x.py"] false).file_count < 1 ∨
      ∃ n ∈ [Node.mk "/a" [] ["x.py"]], (Batch.mk "/a" ["/a/x.py"] false).file_count ≤
        1 + (filter_python_files n.files).length) ∧
      (1 : Nat) ≤ 1 :=
  ⟨(C4_limit_overflow [Node.mk "/a" [] ["x.py"]] 1).1 (Batch.mk "/a" ["/a/x.py"] false)
    (by decide), le_refl 1⟩

/-- C6 (confirmed): when the traversal reaches a node with at least one
python file while some already-closed batch claims one of the node's
subdirectories (joined onto the node's root) among its directories, the
batch that receives the node's python files — whether it stays open or is
closed in the same step — has `blocked = true`. -/
theorem C6_blocked_marking (L : Nat) (st : CrawlState) (n : Node)
    (hpy : 1 ≤ (filter_python_files n.files).length)
    (hblk : ∃ b ∈ st.batches, ∃ d ∈ n.dirs, osPathJoin n.root d ∈ b.directories) :
    ∃ c, ((crawlStep L st n).current = some c ∨
        (crawlStep L st n).batches.getLast? = some c) ∧
      c.blocked = true ∧
      (filter_python_files n.files).map (osPathJoin n.root) <:+ c.files := by
  have h1 : ¬ (filter_python_files n.files).length < 1 := by omega
  rw [crawlStep_go L st n h1]
  have hsub : ∀ bc : List Batch × Batch, (∀ b ∈ st.batches, b ∈ bc.1) →
      ∃ c, ((addAndClose L (markBlocked bc n.root n.dirs)
            ((filter_python_files n.files).map (osPathJoin n.root))).current = some c ∨
          (addAndClose L (markBlocked bc n.root n.dirs)
            ((filter_python_files n.files).map (osPathJoin n.root))).batches.getLast? =
            some c) ∧
        c.blocked = true ∧
        (filter_python_files n.files).map (osPathJoin n.root) <:+ c.files := by
    intro bc hmem
    obtain ⟨b, hb, d, hd, hdir⟩ := hblk
    have hchk : check_if_blocked bc.1 n.root n.dirs = true := by
      refine List.any_eq_true.mpr ⟨b, hmem b hb, ?_⟩
      refine List.any_eq_true.mpr ⟨osPathJoin n.root d, List.mem_map.mpr ⟨d, hd, rfl⟩, ?_⟩
      exact decide_eq_true hdir
    rw [markBlocked_eq_true hchk]
    set paths := (filter_python_files n.files).map (osPathJoin n.root) with hpaths
    set cur := paths.foldl Batch.add { bc.2 with blocked := true } with hcur
    have hcblk : cur.blocked = true := by
      rw [hcur, foldl_add_blocked]
    have hcfiles : paths <:+ cur.files := by
      rw [hcur, foldl_add_files]
      exact ⟨bc.2.files, rfl⟩
    rcases addAndClose_cases L (bc.1, { bc.2 with blocked := true }) paths with
      ⟨heq, _⟩ | ⟨heq, _⟩ <;> rw [heq]
    · exact ⟨cur, Or.inr (by simp), hcblk, hcfiles⟩
    · exact ⟨cur, Or.inl rfl, hcblk, hcfiles⟩
  cases hcur2 : st.current with
  | none =>
    rw [crawlScope_eq_none n.root hcur2]
    exact hsub _ (fun b hb => hb)
  | some c =>
    by_cases hs : c.base_similar n.root = true
    · rw [crawlScope_eq_some_sim n.root hcur2 hs]
      exact hsub _ (fun b hb => hb)
    · rw [crawlScope_eq_some_dis n.root hcur2 (by simpa using hs)]
      exact hsub _ (fun b hb => List.mem_append.mpr (Or.inl hb))

/-- C6, witness: a closed batch over `/a/b/y.py` blocks the batch opened at
`/a` whose subdirectory list contains `b`. -/
theorem C6_witness :
    ∃ c, ((crawlStep 10 (CrawlState.mk [Batch.mk "/a/b" ["/a/b/y.py"] false] none)
          (Node.mk "/a" ["b"] ["x.py"])).current = some c ∨
        (crawlStep 10 (CrawlState.mk [Batch.mk "/a/b" ["/a/b/y.py"] false] none)
          (Node.mk "/a" ["b"] ["x.py"])).batches.getLast? = some c) ∧
      c.blocked = true ∧
      (filter_python_files (Node.mk "/a" ["b"] ["x.py"]).files).map
        (osPathJoin (Node.mk "/a" ["b"] ["x.py"]).root) <:+ c.files :=
  C6_blocked_marking 10 (CrawlState.mk [Batch.mk "/a/b" ["/a/b/y.py"] false] none)
    (Node.mk "/a" ["b"] ["x.py"]) (by decide)
    ⟨Batch.mk "/a/b" ["/a/b/y.py"] false, by decide, "b", by decide, by decide⟩
